import Mathlib

/-!
Shallow embedding of `src/tal_preset_gen.py`.

The core of the program (filename parsing, key/velocity range partitioning,
duplicate resolution, zone assembly) is translated into executable Lean
definitions.  File-system traversal, file copying and XML serialization are
out of scope (the spec lists them as external collaborators); `Zone` records
the attributes the serializer would write for one `<multisample>` element,
with the sample path kept as an opaque reference.

Python modelling conventions:
- Python ints are `Int`; Python `a // 2` (floor division) is `Int.fdiv a 2`.
- Python `None` for a missing velocity/spread is `Option.none`.
- Python truthiness of `Optional[int]` (used in `any(s.vel_hi for s in samples)`)
  is `truthyVel`: `None` and `0` are falsy, every other int truthy.
- Python `sorted` on a list of ints is `sortedInts` (insertion sort; on ints
  any sorting algorithm yields the same list).
- A Python insertion-ordered `dict` built by repeated insertion is an
  association list; `dict` grouping via `setdefault(...).append(...)` followed
  by iteration over one key's list is `List.filter` on that key (both preserve
  the relative input order).  Since `make_tal` only uses the grouping dict's
  keys after `sorted(...)`, the key order of the dict itself is irrelevant and
  `List.dedup` models the distinct-key set.
- `raise ValueError("duplicate velocity")` aborting `make_tal` is
  `Except.error "duplicate velocity"` propagated out of the zone loop, so an
  error result carries no zones (the Python exception likewise prevents the
  output file from being written).
-/

/-- One parsed input sample: `SampleEntry(path, root_midi, vel_hi)`
from the Python dataclass. -/
structure SampleEntry where
  path : String
  root_midi : Int
  vel_hi : Option Int
deriving DecidableEq

/-- The attributes of one emitted `<multisample>` element: root key, key
range, velocity range, and the sample reference. -/
structure Zone where
  path : String
  rootkey : Int
  lowkey : Int
  highkey : Int
  velocitystart : Int
  velocityend : Int
deriving DecidableEq

/-- The `--on-duplicate` choices `{"error", "keep-first", "keep-last"}`. -/
inductive DupPolicy where
  | error
  | keepFirst
  | keepLast
deriving DecidableEq

/-- Python `sorted` on a list of ints. -/
def sortedInts (l : List Int) : List Int :=
  List.insertionSort (fun a b => a ≤ b) l

/-- Mirrors `compute_key_ranges(sorted_roots, low_spread, high_spread)`:
an indexed loop producing, for each root, the triple
`(root, lo, hi)` (the Python version stores `(lo, hi)` in a dict keyed by
the root; keys are distinct, so the ordered triple list is equivalent). -/
def compute_key_ranges (sorted_roots : List Int)
    (low_spread high_spread : Option Int) : List (Int × Int × Int) :=
  let n := sorted_roots.length
  (List.range n).map (fun i =>
    let r := sorted_roots.getD i 0
    let lo : Int :=
      if i = 0 then
        match low_spread with
        | none => 0
        | some l => max 0 (r - l)
      else Int.fdiv (sorted_roots.getD (i - 1) 0 + r) 2 + 1
    let hi : Int :=
      if i = n - 1 then
        match high_spread with
        | none => 127
        | some h => min 127 (r + h)
      else Int.fdiv (r + sorted_roots.getD (i + 1) 0) 2
    (r, lo, hi))

/-- The accumulation loop of `compute_vel_ranges`: `lo` starts at 0 and each
velocity `v` contributes `(v, lo, v)`, the next `lo` becoming `v + 1`. -/
def velLoop : List Int → Int → List (Int × Int × Int)
  | [], _ => []
  | v :: rest, lo => (v, lo, v) :: velLoop rest (v + 1)

/-- Mirrors `out[-1] = (v, lo0, 127)`: the last triple's high bound is
replaced by 127 (no-op on the empty list, as in the Python `if out:`). -/
def setLast127 : List (Int × Int × Int) → List (Int × Int × Int)
  | [] => []
  | [t] => [(t.1, t.2.1, 127)]
  | t :: rest => t :: setLast127 rest

/-- Mirrors `compute_vel_ranges(vels)`: sort, accumulate `(v, lo, v)`
triples, then force the last high bound to 127. -/
def compute_vel_ranges (vels : List Int) : List (Int × Int × Int) :=
  setLast127 (velLoop (sortedInts vels) 0)

/-- Python truthiness of an `Optional[int]`: `None` and `0` are falsy. -/
def truthyVel : Option Int → Bool
  | none => false
  | some v => v != 0

/-- Lookup in the association-list model of the `vel_map` dict. -/
def velLookup (m : List (Int × SampleEntry)) (v : Int) : Option SampleEntry :=
  match m with
  | [] => none
  | p :: rest => if p.1 = v then some p.2 else velLookup rest v

/-- One iteration of the `vel_map` loop in `make_tal` (lines 172-182):
entries without a velocity are skipped; a colliding velocity either raises
(`error`), is ignored (`keep-first`), or overwrites in place (`keep-last`). -/
def velMapInsert (pol : DupPolicy) (m : List (Int × SampleEntry))
    (s : SampleEntry) : Except String (List (Int × SampleEntry)) :=
  match s.vel_hi with
  | none => .ok m
  | some v =>
    if (velLookup m v).isSome then
      match pol with
      | .error => .error "duplicate velocity"
      | .keepFirst => .ok m
      | .keepLast => .ok (m.map (fun p => if p.1 = v then (v, s) else p))
    else .ok (m ++ [(v, s)])

/-- The full `vel_map` loop over a root's samples. -/
def buildVelMap (pol : DupPolicy) :
    List (Int × SampleEntry) → List SampleEntry →
    Except String (List (Int × SampleEntry))
  | m, [] => .ok m
  | m, s :: rest =>
    match velMapInsert pol m s with
    | .error e => .error e
    | .ok m2 => buildVelMap pol m2 rest

/-- The body of `make_tal`'s per-root loop (lines 146-205): if no sample
under the root has a truthy velocity, one zone `[0,127]` is emitted for the
first sample; otherwise the velocity map is built (possibly aborting) and one
zone per velocity range is emitted.  The `[]` sample case cannot arise for
roots of the actual iteration (every root has at least one sample); the
`lookup` fallback is likewise unreachable since every velocity range key is a
key of the map. -/
def zonesForRoot (pol : DupPolicy) (r lo hi : Int)
    (samples : List SampleEntry) : Except String (List Zone) :=
  if samples.any (fun s => truthyVel s.vel_hi) then
    match buildVelMap pol [] samples with
    | .error e => .error e
    | .ok m =>
      let vr := compute_vel_ranges (sortedInts (m.map Prod.fst))
      .ok (vr.map (fun t =>
        match velLookup m t.1 with
        | some s => ⟨s.path, r, lo, hi, t.2.1, t.2.2⟩
        | none => ⟨"", r, lo, hi, t.2.1, t.2.2⟩))
  else
    match samples with
    | [] => .ok []
    | s :: _ => .ok [⟨s.path, r, lo, hi, 0, 127⟩]

/-- The `for r in roots` loop of `make_tal`, iterating over the key-range
triples (whose first components are exactly the sorted roots) and
concatenating the per-root zones; a raised duplicate error aborts the whole
loop, exactly as the Python exception does. -/
def zonesLoop (pol : DupPolicy) :
    List (Int × Int × Int) → List SampleEntry → Except String (List Zone)
  | [], _ => .ok []
  | t :: rest, entries =>
    match zonesForRoot pol t.1 t.2.1 t.2.2
        (entries.filter (fun e => e.root_midi == t.1)) with
    | .error e => .error e
    | .ok zs =>
      match zonesLoop pol rest entries with
      | .error e => .error e
      | .ok zss => .ok (zs ++ zss)

/-- `roots = sorted(by_note.keys())`: the sorted distinct root notes. -/
def rootsOf (entries : List SampleEntry) : List Int :=
  sortedInts (entries.map (fun e => e.root_midi)).dedup

/-- Mirrors `make_tal`: group by root, compute key ranges over the sorted
distinct roots, and emit the zones root by root (or abort on a duplicate
velocity under the `error` policy).  Directory creation, file copying and
XML writing are external and omitted; each zone keeps the sample's path. -/
def make_tal (entries : List SampleEntry) (pol : DupPolicy)
    (low_spread high_spread : Option Int) : Except String (List Zone) :=
  zonesLoop pol (compute_key_ranges (rootsOf entries) low_spread high_spread)
    entries

/-! ## Filename parsing (auto-detect mode) -/

/-- ASCII alphanumeric test, the character class `[A-Za-z0-9]`. -/
def isAlnum (c : Char) : Bool :=
  (('A' ≤ c ∧ c ≤ 'Z') ∨ ('a' ≤ c ∧ c ≤ 'z') ∨ ('0' ≤ c ∧ c ≤ '9') : Prop)

/-- The character class `[A-Ga-g]` of note letters. -/
def isNoteLetter (c : Char) : Bool :=
  (('A' ≤ c ∧ c ≤ 'G') ∨ ('a' ≤ c ∧ c ≤ 'g') : Prop)

/-- The accidental class `[#bB]`. -/
def isAccidental (c : Char) : Bool :=
  (c = '#' ∨ c = 'b' ∨ c = 'B' : Prop)

/-- The digit class `[0-9]`. -/
def isDigitC (c : Char) : Bool :=
  (('0' ≤ c ∧ c ≤ '9') : Prop)

/-- Integer value of a digit string, as Python `int` on a decimal string. -/
def digitsVal (ds : List Char) : Int :=
  ds.foldl (fun acc c => 10 * acc + ((c.toNat : Int) - 48)) 0

/-- Uppercasing of the note letter (`l.upper()` for `[A-Ga-g]`). -/
def upperL (c : Char) : Char :=
  match c with
  | 'a' => 'A' | 'b' => 'B' | 'c' => 'C' | 'd' => 'D'
  | 'e' => 'E' | 'f' => 'F' | 'g' => 'G' | c => c

/-- Uppercasing of the accidental (`a.upper()` for `[#bB]`). -/
def upperAcc (c : Char) : Char :=
  match c with
  | 'b' => 'B' | c => c

/-- The fixed `NOTE_TO_SEMI` table, keyed by uppercased letter and optional
uppercased accidental (`"B"` spelling a flat).  Keys absent from the Python
dict (such as `E#` or `CB`) yield `none`. -/
def noteToSemi (l : Char) (a : Option Char) : Option Int :=
  match l, a with
  | 'C', none => some 0
  | 'C', some '#' => some 1
  | 'D', some 'B' => some 1
  | 'D', none => some 2
  | 'D', some '#' => some 3
  | 'E', some 'B' => some 3
  | 'E', none => some 4
  | 'F', none => some 5
  | 'F', some '#' => some 6
  | 'G', some 'B' => some 6
  | 'G', none => some 7
  | 'G', some '#' => some 8
  | 'A', some 'B' => some 8
  | 'A', none => some 9
  | 'A', some '#' => some 10
  | 'B', some 'B' => some 10
  | 'B', none => some 11
  | _, _ => none

/-- The anchored suffix `-?\d+$`: an optional minus sign followed by one or
more digits reaching the end of the string. -/
def parseSignedDigits : List Char → Option Int
  | '-' :: ds =>
    if ds ≠ [] ∧ ds.all isDigitC then some (-(digitsVal ds)) else none
  | ds =>
    if ds ≠ [] ∧ ds.all isDigitC then some (digitsVal ds) else none

/-- Mirrors `note_to_midi(note, middle_c)`: anchored match of
`^([A-Ga-g])([#bB]?)(-?\d+)$`, table lookup of the uppercased
letter-plus-accidental key, and `60 + 12*(octave - middle_c) + semi`.
Unmatched strings and absent table keys give `none`. -/
def note_to_midi (note : List Char) (middle_c : Int) : Option Int :=
  match note with
  | l :: rest =>
    if isNoteLetter l then
      let p : Option Char × List Char :=
        match rest with
        | a :: r2 => if isAccidental a then (some a, r2) else (none, rest)
        | [] => (none, [])
      match parseSignedDigits p.2 with
      | some o =>
        match noteToSemi (upperL l) (p.1.map upperAcc) with
        | some semi => some (60 + 12 * (o - middle_c) + semi)
        | none => none
      | none => none
    else none
  | [] => none

/-- A match of the token part of `NOTE_RE` at the head of the suffix `l`:
note letter, optional accidental, optional minus, a maximal nonempty digit
run, and the lookahead `(?=$|[^A-Za-z0-9])`.  Returns the matched token
(the concatenation of the three capture groups).  The regex engine's
backtracking never helps here: dropping a consumed accidental or minus sign
forces `\d+` onto a non-digit, and shortening the greedy digit run puts a
digit under the negative lookahead, so the deterministic parse below is
exactly the regex's behaviour. -/
def noteTokenHere (l : List Char) : Option (List Char) :=
  match l with
  | [] => none
  | c :: rest =>
    if isNoteLetter c then
      let p : List Char × List Char :=
        match rest with
        | a :: r2 => if isAccidental a then ([a], r2) else ([], rest)
        | [] => ([], [])
      let q : List Char × List Char :=
        match p.2 with
        | '-' :: r3 => (['-'], r3)
        | _ => ([], p.2)
      let digits := q.2.takeWhile isDigitC
      let after := q.2.dropWhile isDigitC
      if digits = [] then none
      else
        match after with
        | [] => some (c :: (p.1 ++ q.1 ++ digits))
        | d :: _ =>
          if isAlnum d then none else some (c :: (p.1 ++ q.1 ++ digits))
    else none

/-- `NOTE_RE.search`: scan left to right for the first position where the
note token matches; the flag records whether the current position is a valid
token start (start of string, or preceded by a non-alphanumeric character,
the group `(?:^|[^A-Za-z0-9])`).  Returns the token position (letter index)
and the token. -/
def noteSearchRel (b : Bool) : List Char → Option (Nat × List Char)
  | [] => none
  | c :: rest =>
    match b, noteTokenHere (c :: rest) with
    | true, some tok => some (0, tok)
    | _, _ =>
      (noteSearchRel (!isAlnum c) rest).map (fun q => (q.1 + 1, q.2))

/-- `NOTE_RE.search(name)` from the start of the string. -/
def noteSearch (s : List Char) : Option (Nat × List Char) :=
  noteSearchRel true s

/-- Decidable statement that `NOTE_RE` has a match whose token starts at
position `p` of `s`: the position is the string start or preceded by a
non-alphanumeric character, and the token parse succeeds there. -/
def noteMatchAt (s : List Char) (p : Nat) : Bool :=
  (if p = 0 then true
   else match s.get? (p - 1) with
     | some c => !isAlnum c
     | none => false)
  && (noteTokenHere (s.drop p)).isSome

/-- The tail `[ _\-]?(\d{1,3})` of the velocity regex: an optional single
separator, then one to three digits taken greedily.  As with the note token,
backtracking the optional separator cannot produce a match the direct parse
misses (the separator characters are not digits). -/
def sepDigits (l : List Char) : Option (List Char) :=
  match l with
  | [] => none
  | c :: rest =>
    if c = ' ' ∨ c = '_' ∨ c = '-' then
      match rest with
      | [] => none
      | d :: _ =>
        if isDigitC d then some ((rest.takeWhile isDigitC).take 3) else none
    else if isDigitC c then some ((l.takeWhile isDigitC).take 3) else none

/-- A case-insensitive match of `(?:vel|v)[ _\-]?(\d{1,3})` at the head of
`l`, trying the `vel` alternative before the `v` alternative as the regex
engine does.  Returns the digit group. -/
def velTokenHere (l : List Char) : Option (List Char) :=
  match l with
  | [] => none
  | c :: rest =>
    if c = 'v' ∨ c = 'V' then
      match rest with
      | e :: lc :: rest2 =>
        if (e = 'e' ∨ e = 'E') ∧ (lc = 'l' ∨ lc = 'L') then
          match sepDigits rest2 with
          | some ds => some ds
          | none => sepDigits rest
        else sepDigits rest
      | _ => sepDigits rest
    else none

/-- `re.search` of the velocity pattern: leftmost match. -/
def velSearch : List Char → Option (List Char)
  | [] => none
  | c :: rest =>
    match velTokenHere (c :: rest) with
    | some ds => some ds
    | none => velSearch rest

/-- Mirrors `auto_detect(name, middle_c)`: the root comes from the leftmost
`NOTE_RE` match (its joined groups fed to `note_to_midi`), the velocity from
the leftmost velocity match, accepted only when its value lies in
`[1,127]`. -/
def auto_detect (name : List Char) (middle_c : Int) : Option Int × Option Int :=
  let root : Option Int :=
    match noteSearch name with
    | some q => note_to_midi q.2 middle_c
    | none => none
  let vel : Option Int :=
    match velSearch name with
    | some ds =>
      let v := digitsVal ds
      if 1 ≤ v ∧ v ≤ 127 then some v else none
    | none => none
  (root, vel)

/-- The entry-building loop of `main` (lines 244-261) in auto-detect mode:
each stem is parsed; a file whose root does not resolve is skipped
(`continue`), all others contribute a `SampleEntry` in input order.  The
stem string stands in for the sample path. -/
def parseStems : List String → Int → List SampleEntry
  | [], _ => []
  | p :: rest, mc =>
    match auto_detect p.data mc with
    | (some root, vel) => ⟨p, root, vel⟩ :: parseStems rest mc
    | (none, _) => parseStems rest mc

/-- The template-mode root post-processing of `main` (line 253):
`root = note_to_midi(note, middle_c) if note else None` applied to the
`note` capture of the compiled pattern. -/
def template_root (note : Option (List Char)) (mc : Int) : Option Int :=
  match note with
  | some n => note_to_midi n mc
  | none => none

/-- The template-mode velocity post-processing of `main` (line 254):
`vel = int(vel) if vel else None` applied to the `vel` capture — no range
check is performed. -/
def template_vel (vel : Option (List Char)) : Option Int :=
  match vel with
  | some ds => if ds.isEmpty then none else some (digitsVal ds)
  | none => none

/-! ## Helper notions for the partition statements -/

/-- The list of integers `lo, lo+1, ..., hi` (empty when `hi < lo`). -/
def intRange (lo hi : Int) : List Int :=
  (List.range (hi + 1 - lo).toNat).map (fun k : Nat => lo + (k : Int))

/-- The keys covered by one `(root, lo, hi)` triple. -/
def segOf (t : Int × Int × Int) : List Int :=
  intRange t.2.1 t.2.2

/-- The `(rootMidiNote, velocityHigh)` keys of the velocity-bearing entries,
in input order. -/
def velKeys (entries : List SampleEntry) : List (Int × Int) :=
  entries.filterMap (fun e => e.vel_hi.map (fun v => (e.root_midi, v)))

/-- Whether an `Except` result is the error outcome. -/
def isErr {α : Type} : Except String α → Bool
  | .error _ => true
  | .ok _ => false

/-- The triples form a gapless chain of intervals starting at `a` and ending
at `b`: each triple's interval starts where the previous one stopped plus
one, is nonempty, and the last stops at `b`. -/
def chainSeg : Int → List (Int × Int × Int) → Int → Prop
  | a, [], b => b = a - 1
  | a, t :: rest, b => t.2.1 = a ∧ t.2.1 ≤ t.2.2 ∧ chainSeg (t.2.2 + 1) rest b

/-- Unfolding of `chainSeg` on the empty list. -/
theorem chainSeg_nil (a b : Int) : chainSeg a [] b ↔ b = a - 1 :=
  Iff.rfl

/-- Unfolding of `chainSeg` on a cons. -/
theorem chainSeg_cons (a b : Int) (t : Int × Int × Int)
    (rest : List (Int × Int × Int)) :
    chainSeg a (t :: rest) b ↔
      t.2.1 = a ∧ t.2.1 ≤ t.2.2 ∧ chainSeg (t.2.2 + 1) rest b :=
  Iff.rfl

/-! ## General lemmas -/

theorem fdiv_two (a : Int) : Int.fdiv a 2 = a / 2 :=
  Int.fdiv_eq_ediv a (by norm_num)

theorem getD_eq_get {α : Type} (l : List α) (d : α) (i : Nat)
    (h : i < l.length) : l.getD i d = l.get ⟨i, h⟩ := by
  rw [List.getD_eq_getElem?_getD, List.getElem?_eq_getElem h]
  rfl

theorem getD_mem {α : Type} (l : List α) (d : α) (i : Nat)
    (h : i < l.length) : l.getD i d ∈ l := by
  rw [getD_eq_get l d i h]
  exact l.get_mem i h

theorem compute_key_ranges_length (rs : List Int) (ls hs : Option Int) :
    (compute_key_ranges rs ls hs).length = rs.length := by
  simp [compute_key_ranges]

theorem compute_key_ranges_getD (rs : List Int) (ls hs : Option Int) (i : Nat)
    (h : i < rs.length) :
    (compute_key_ranges rs ls hs).getD i (0, 0, 0) =
      (rs.getD i 0,
       if i = 0 then
         match ls with
         | none => 0
         | some l => max 0 (rs.getD i 0 - l)
       else Int.fdiv (rs.getD (i - 1) 0 + rs.getD i 0) 2 + 1,
       if i = rs.length - 1 then
         match hs with
         | none => 127
         | some hsp => min 127 (rs.getD i 0 + hsp)
       else Int.fdiv (rs.getD i 0 + rs.getD (i + 1) 0) 2) := by
  simp [compute_key_ranges, List.getD_eq_getElem?_getD, List.getElem?_map,
    List.getElem?_range h]

theorem intRange_append (a m b : Int) (h1 : a ≤ m + 1) (h2 : m ≤ b) :
    intRange a m ++ intRange (m + 1) b = intRange a b := by
  unfold intRange
  have hn : (b + 1 - a).toNat = (m + 1 - a).toNat + (b - m).toNat := by omega
  rw [hn, List.range_add, List.map_append, List.map_map]
  refine congrArg₂ (fun x y => x ++ y) rfl ?_
  have he : (b + 1 - (m + 1)).toNat = (b - m).toNat := by omega
  rw [he]
  refine List.map_congr_left (fun x _ => ?_)
  simp only [Function.comp_apply]
  push_cast
  omega

theorem chainSeg_flatten : ∀ (L : List (Int × Int × Int)) (a b : Int),
    chainSeg a L b → ((L.map segOf).flatten = intRange a b ∧ a ≤ b + 1) := by
  intro L
  induction L with
  | nil =>
    intro a b h
    rw [chainSeg_nil] at h
    subst h
    refine ⟨?_, by omega⟩
    have h0 : (a - 1 + 1 - a).toNat = 0 := by omega
    simp [intRange, h0]
  | cons t rest ih =>
    intro a b h
    rw [chainSeg_cons] at h
    obtain ⟨hlo, hle, hrest⟩ := h
    obtain ⟨hjoin, hbound⟩ := ih (t.2.2 + 1) b hrest
    refine ⟨?_, by omega⟩
    simp only [List.map_cons, List.flatten_cons, hjoin, segOf, hlo]
    exact intRange_append a t.2.2 b (by omega) (by omega)

theorem chainSeg_of_getD : ∀ (L : List (Int × Int × Int)) (a b : Int),
    L ≠ [] →
    (L.getD 0 (0, 0, 0)).2.1 = a →
    (L.getD (L.length - 1) (0, 0, 0)).2.2 = b →
    (∀ i, i < L.length →
      (L.getD i (0, 0, 0)).2.1 ≤ (L.getD i (0, 0, 0)).2.2) →
    (∀ i, i + 1 < L.length →
      (L.getD (i + 1) (0, 0, 0)).2.1 = (L.getD i (0, 0, 0)).2.2 + 1) →
    chainSeg a L b := by
  intro L
  induction L with
  | nil => intro a b h; exact absurd rfl h
  | cons t rest ih =>
    intro a b _ hhead hlast hle hadj
    cases rest with
    | nil =>
      rw [chainSeg_cons]
      refine ⟨hhead, by simpa using hle 0 (by simp), ?_⟩
      rw [chainSeg_nil]
      have hb : t.2.2 = b := by simpa using hlast
      omega
    | cons y t2 =>
      rw [chainSeg_cons]
      refine ⟨hhead, by simpa using hle 0 (by simp), ?_⟩
      apply ih (t.2.2 + 1) b (List.cons_ne_nil y t2)
      · have := hadj 0 (by simp)
        simpa using this
      · have hL : (t :: y :: t2).length - 1 = ((y :: t2).length - 1) + 1 := by
          simp
        rw [hL, List.getD_cons_succ] at hlast
        exact hlast
      · intro i hi
        have := hle (i + 1) (by simpa using Nat.succ_lt_succ hi)
        simpa using this
      · intro i hi
        have := hadj (i + 1) (by simpa using Nat.succ_lt_succ hi)
        simpa using this

theorem getD_sorted_lt (rs : List Int) (hs : List.Chain' (· < ·) rs)
    (i : Nat) (h : i + 1 < rs.length) : rs.getD i 0 < rs.getD (i + 1) 0 := by
  rw [List.chain'_iff_get] at hs
  have hlt := hs i (by omega)
  rw [getD_eq_get rs 0 i (by omega), getD_eq_get rs 0 (i + 1) h]
  exact hlt

/-- C1: for every non-empty strictly sorted list of roots inside `[0,127]`
and no spreads, the computed key ranges are contiguous, non-overlapping and
cover `[0,127]` in full — their intervals concatenate to exactly the list
`0, 1, ..., 127` — and a single distinct root yields exactly `[0,127]`. -/
theorem c1_key_ranges_partition (rs : List Int) (hne : rs ≠ [])
    (hsorted : List.Chain' (· < ·) rs)
    (hbound : ∀ r ∈ rs, 0 ≤ r ∧ r ≤ 127) :
    (((compute_key_ranges rs none none).map segOf).flatten = intRange 0 127) ∧
    (∀ r : Int, compute_key_ranges [r] none none = [(r, 0, 127)]) := by
  constructor
  · have hlen : (compute_key_ranges rs none none).length = rs.length :=
      compute_key_ranges_length rs none none
    have hlenpos : 0 < rs.length := List.length_pos.mpr hne
    have hcs : chainSeg 0 (compute_key_ranges rs none none) 127 := by
      apply chainSeg_of_getD
      · exact List.ne_nil_of_length_pos (by omega)
      · rw [compute_key_ranges_getD rs none none 0 hlenpos]
        simp
      · rw [hlen,
          compute_key_ranges_getD rs none none (rs.length - 1) (by omega)]
        simp
      · intro i hi
        rw [hlen] at hi
        rw [compute_key_ranges_getD rs none none i hi]
        have hbi := hbound _ (getD_mem rs 0 i hi)
        by_cases h1 : i = 0
        · subst h1
          by_cases h2 : (0 : Nat) = rs.length - 1
          · simp [if_pos h2]
          · have hlt : rs.getD 0 0 < rs.getD 1 0 := by
              simpa using getD_sorted_lt rs hsorted 0 (by omega)
            have hb1 := hbound _ (getD_mem rs 0 1 (by omega))
            simp [if_neg h2, fdiv_two]
            simp only [List.getD_eq_getElem?_getD] at hlt hbi hb1
            omega
        · by_cases h2 : i = rs.length - 1
          · have hlt := getD_sorted_lt rs hsorted (i - 1) (by omega)
            have hb0 := hbound _ (getD_mem rs 0 (i - 1) (by omega))
            have hij : i - 1 + 1 = i := by omega
            rw [hij] at hlt
            simp only [if_neg h1, if_pos h2, fdiv_two]
            omega
          · have hlt0 := getD_sorted_lt rs hsorted (i - 1) (by omega)
            have hlt1 := getD_sorted_lt rs hsorted i (by omega)
            have hij : i - 1 + 1 = i := by omega
            rw [hij] at hlt0
            simp only [if_neg h1, if_neg h2, fdiv_two]
            omega
      · intro i hi
        rw [hlen] at hi
        rw [compute_key_ranges_getD rs none none (i + 1) (by omega),
          compute_key_ranges_getD rs none none i (by omega)]
        have h1 : ¬ (i + 1 = 0) := by omega
        have h2 : ¬ (i = rs.length - 1) := by omega
        simp only [if_neg h1, if_neg h2]
        simp
    exact (chainSeg_flatten _ 0 127 hcs).1
  · intro r
    rfl

/-- Witness for C1 at the concrete sorted root list `[48, 60, 72]`. -/
theorem c1_witness :
    (((compute_key_ranges [48, 60, 72] none none).map segOf).flatten =
        intRange 0 127) ∧
    (∀ r : Int, compute_key_ranges [r] none none = [(r, 0, 127)]) :=
  c1_key_ranges_partition [48, 60, 72] (by decide)
    (by simp [List.chain'_cons, List.chain'_singleton]) (by decide)

/-- C2: for every sorted list of distinct roots and every spread
configuration, the range of the root at index `i` follows the claimed case
split for its low and high bound; on roots `[48, 60, 72]` with no spreads
this yields `48 → [0,54]`, `60 → [55,66]`, `72 → [67,127]`. -/
theorem c2_key_range_formulas :
    (∀ (rs : List Int) (ls hs : Option Int) (i : Nat),
        List.Chain' (· < ·) rs → i < rs.length →
        (compute_key_ranges rs ls hs).getD i (0, 0, 0) =
          (rs.getD i 0,
           if i = 0 then
             match ls with
             | none => 0
             | some l => max 0 (rs.getD 0 0 - l)
           else Int.fdiv (rs.getD (i - 1) 0 + rs.getD i 0) 2 + 1,
           if i = rs.length - 1 then
             match hs with
             | none => 127
             | some h => min 127 (rs.getD (rs.length - 1) 0 + h)
           else Int.fdiv (rs.getD i 0 + rs.getD (i + 1) 0) 2)) ∧
    compute_key_ranges [48, 60, 72] none none =
      [(48, 0, 54), (60, 55, 66), (72, 67, 127)] := by
  constructor
  · intro rs ls hs i _ h
    rw [compute_key_ranges_getD rs ls hs i h]
    refine congrArg₂ Prod.mk rfl (congrArg₂ Prod.mk ?_ ?_)
    · by_cases h1 : i = 0
      · subst h1
        rfl
      · simp [h1]
    · by_cases h2 : i = rs.length - 1
      · subst h2
        rfl
      · simp [h2]
  · rfl

/-- Witness for C2 at roots `[48, 60, 72]`, index 1, no spreads. -/
theorem c2_witness :
    (compute_key_ranges [48, 60, 72] none none).getD 1 (0, 0, 0) =
      (60, 55, 66) := by
  have h := c2_key_range_formulas.1 [48, 60, 72] none none 1
    (by simp [List.chain'_cons, List.chain'_singleton]) (by decide)
  exact h.trans (by decide)

/-! ## Velocity range lemmas -/

theorem sortedInts_eq_self (l : List Int) (h : List.Chain' (· < ·) l) :
    sortedInts l = l := by
  apply List.Sorted.insertionSort_eq
  exact (List.chain'_iff_pairwise.mp h).imp le_of_lt

theorem sortedInts_length (l : List Int) : (sortedInts l).length = l.length :=
  (List.perm_insertionSort (fun a b => a ≤ b) l).length_eq

theorem velLoop_length (l : List Int) (lo : Int) :
    (velLoop l lo).length = l.length := by
  induction l generalizing lo with
  | nil => rfl
  | cons v rest ih => simp [velLoop, ih]

theorem setLast127_length : ∀ L : List (Int × Int × Int),
    (setLast127 L).length = L.length := by
  intro L
  induction L with
  | nil => rfl
  | cons t rest ih =>
    cases rest with
    | nil => rfl
    | cons u t2 => simpa [setLast127] using ih

theorem velLoop_getD : ∀ (l : List Int) (lo : Int) (j : Nat),
    j < l.length →
    (velLoop l lo).getD j (0, 0, 0) =
      (l.getD j 0, if j = 0 then lo else l.getD (j - 1) 0 + 1, l.getD j 0) := by
  intro l
  induction l with
  | nil => intro lo j h; simp at h
  | cons v rest ih =>
    intro lo j h
    cases j with
    | zero => simp [velLoop]
    | succ j =>
      rw [velLoop, List.getD_cons_succ, ih (v + 1) j (by simpa using h)]
      cases j with
      | zero => simp
      | succ j2 => simp

theorem setLast127_getD : ∀ (L : List (Int × Int × Int)) (j : Nat),
    j < L.length →
    (setLast127 L).getD j (0, 0, 0) =
      (if j = L.length - 1 then
        ((L.getD j (0, 0, 0)).1, (L.getD j (0, 0, 0)).2.1, 127)
       else L.getD j (0, 0, 0)) := by
  intro L
  induction L with
  | nil => intro j h; simp at h
  | cons t rest ih =>
    intro j h
    cases rest with
    | nil =>
      cases j with
      | zero => simp [setLast127]
      | succ j => simp at h
    | cons u t2 =>
      have hs : setLast127 (t :: u :: t2) = t :: setLast127 (u :: t2) := rfl
      rw [hs]
      cases j with
      | zero =>
        have hz : ¬ ((0 : Nat) = (t :: u :: t2).length - 1) := by simp
        simp [if_neg hz]
      | succ j =>
        rw [List.getD_cons_succ, List.getD_cons_succ,
          ih j (by simpa using h)]
        have hiff : (j = (u :: t2).length - 1) ↔
            (j + 1 = (t :: u :: t2).length - 1) := by
          simp only [List.length_cons]
          omega
        by_cases hj : j = (u :: t2).length - 1
        · rw [if_pos hj, if_pos (hiff.mp hj)]
        · rw [if_neg hj, if_neg (fun hc => hj (hiff.mpr hc))]

theorem velSeg_flatten : ∀ (vels : List Int) (v lo : Int),
    List.Chain' (· < ·) (v :: vels) → (∀ x ∈ v :: vels, x ≤ 127) → lo ≤ v →
    ((setLast127 (velLoop (v :: vels) lo)).map segOf).flatten =
      intRange lo 127 := by
  intro vels
  induction vels with
  | nil =>
    intro v lo _ _ _
    simp [velLoop, setLast127, segOf]
  | cons w rest ih =>
    intro v lo hchain hb hlo
    have hvw : v < w := List.chain'_cons.mp hchain |>.1
    have hstep :
        setLast127 (velLoop (v :: w :: rest) lo) =
          (v, lo, v) :: setLast127 (velLoop (w :: rest) (v + 1)) := rfl
    rw [hstep]
    simp only [List.map_cons, List.flatten_cons]
    rw [ih w (v + 1) (List.chain'_cons.mp hchain).2
      (fun x hx => hb x (List.mem_cons_of_mem v hx)) (by omega)]
    exact intRange_append lo v 127 (by omega)
      (by have := hb v (by simp); omega)

/-- C3: for every nonempty strictly sorted list of distinct velocity values
in `[1,127]`, the velocity ranges are `[0,v0]`, `[v0+1,v1]`, ..., the last
high bound is forced to 127 (for any nonempty input, regardless of the
source value), and the ranges partition `[0,127]` exactly; velocities
`[40, 90, 127]` yield `[0,40], [41,90], [91,127]`. -/
theorem c3_vel_ranges_partition :
    (∀ vels : List Int, vels ≠ [] → List.Chain' (· < ·) vels →
      (∀ v ∈ vels, 1 ≤ v ∧ v ≤ 127) →
      (((compute_vel_ranges vels).map segOf).flatten = intRange 0 127) ∧
      (∀ j, j < vels.length →
        (compute_vel_ranges vels).getD j (0, 0, 0) =
          (vels.getD j 0,
           if j = 0 then 0 else vels.getD (j - 1) 0 + 1,
           if j = vels.length - 1 then 127 else vels.getD j 0))) ∧
    (∀ l : List Int, l ≠ [] →
      ((compute_vel_ranges l).getD ((compute_vel_ranges l).length - 1)
          (0, 0, 0)).2.2 = 127) ∧
    compute_vel_ranges [40, 90, 127] =
      [(40, 0, 40), (90, 41, 90), (127, 91, 127)] := by
  refine ⟨?_, ?_, by decide⟩
  · intro vels hne hchain hb
    have hsort : sortedInts vels = vels := sortedInts_eq_self vels hchain
    constructor
    · match vels, hne with
      | v :: rest, _ =>
        unfold compute_vel_ranges
        rw [hsort]
        exact velSeg_flatten rest v 0 hchain
          (fun x hx => (hb x hx).2) (by have := (hb v (by simp)).1; omega)
    · intro j hj
      unfold compute_vel_ranges
      rw [hsort]
      have hlen : (velLoop vels 0).length = vels.length :=
        velLoop_length vels 0
      rw [setLast127_getD (velLoop vels 0) j (by omega),
        velLoop_getD vels 0 j hj, hlen]
      by_cases hl : j = vels.length - 1
      · rw [if_pos hl, if_pos hl]
      · rw [if_neg hl, if_neg hl]
  · intro l hl
    have hpos : 0 < l.length := List.length_pos.mpr hl
    unfold compute_vel_ranges
    rw [setLast127_length, velLoop_length, sortedInts_length]
    rw [setLast127_getD (velLoop (sortedInts l) 0) (l.length - 1)
      (by rw [velLoop_length, sortedInts_length]; omega)]
    rw [velLoop_length, sortedInts_length]
    rw [if_pos rfl]

/-- Witness for C3 at the velocity list `[40, 90, 127]`. -/
theorem c3_witness :
    (((compute_vel_ranges [40, 90, 127]).map segOf).flatten =
        intRange 0 127) ∧
    (∀ j, j < ([40, 90, 127] : List Int).length →
      (compute_vel_ranges [40, 90, 127]).getD j (0, 0, 0) =
        (([40, 90, 127] : List Int).getD j 0,
         if j = 0 then 0 else ([40, 90, 127] : List Int).getD (j - 1) 0 + 1,
         if j = ([40, 90, 127] : List Int).length - 1 then 127
         else ([40, 90, 127] : List Int).getD j 0)) :=
  c3_vel_ranges_partition.1 [40, 90, 127] (by decide)
    (by simp [List.chain'_cons, List.chain'_singleton]) (by decide)

/-! ## Duplicate-handling lemmas -/

theorem velLookup_isSome : ∀ (m : List (Int × SampleEntry)) (v : Int),
    (velLookup m v).isSome = true ↔ v ∈ m.map Prod.fst := by
  intro m v
  induction m with
  | nil => simp [velLookup]
  | cons p rest ih =>
    by_cases hp : p.1 = v
    · simp [velLookup, hp]
    · have hvp : ¬ (v = p.1) := fun h => hp h.symm
      simp [velLookup, hp, ih, hvp]

theorem buildVelMap_error_iff : ∀ (samples : List SampleEntry)
    (m : List (Int × SampleEntry)), (m.map Prod.fst).Nodup →
    (isErr (buildVelMap .error m samples) = true ↔
      ¬ (m.map Prod.fst ++
          samples.filterMap (fun s => s.vel_hi)).Nodup) := by
  intro samples
  induction samples with
  | nil =>
    intro m hm
    simp [buildVelMap, isErr, hm]
  | cons s rest ih =>
    intro m hm
    cases hv : s.vel_hi with
    | none =>
      have hstep : buildVelMap .error m (s :: rest) =
          buildVelMap .error m rest := by
        simp [buildVelMap, velMapInsert, hv]
      rw [hstep, ih m hm]
      simp [hv]
    | some v =>
      by_cases hmem : v ∈ m.map Prod.fst
      · have hsome : (velLookup m v).isSome = true :=
          (velLookup_isSome m v).mpr hmem
        have hstep : buildVelMap .error m (s :: rest) =
            .error "duplicate velocity" := by
          simp [buildVelMap, velMapInsert, hv, hsome]
        rw [hstep]
        have hnd : ¬ (m.map Prod.fst ++
            (s :: rest).filterMap (fun x => x.vel_hi)).Nodup := by
          intro hc
          rw [List.nodup_append] at hc
          exact hc.2.2 hmem (by simp [hv])
        simp [isErr, hnd]
      · have hnot : ¬ (velLookup m v).isSome = true :=
          fun hc => hmem ((velLookup_isSome m v).mp hc)
        have hb : (velLookup m v).isSome = false :=
          Bool.eq_false_iff.mpr (by simpa using hnot)
        have hstep : buildVelMap .error m (s :: rest) =
            buildVelMap .error (m ++ [(v, s)]) rest := by
          simp [buildVelMap, velMapInsert, hv, hb]
        have hm2 : ((m ++ [(v, s)]).map Prod.fst).Nodup := by
          rw [List.map_append, List.nodup_append]
          exact ⟨hm, by simp, by simpa using hmem⟩
        rw [hstep, ih (m ++ [(v, s)]) hm2]
        rw [List.map_append]
        have hshape : (m.map Prod.fst ++ [(v, s)].map Prod.fst) ++
            rest.filterMap (fun x => x.vel_hi) =
            m.map Prod.fst ++
              (s :: rest).filterMap (fun x => x.vel_hi) := by
          simp [hv]
        rw [hshape]

@[simp] theorem isErr_error {α : Type} (e : String) :
    isErr (Except.error e : Except String α) = true := rfl

@[simp] theorem isErr_ok {α : Type} (a : α) :
    isErr (Except.ok a : Except String α) = false := rfl

theorem zonesForRoot_error_iff (r lo hi : Int) (samples : List SampleEntry) :
    isErr (zonesForRoot .error r lo hi samples) = true ↔
      (samples.any (fun s => truthyVel s.vel_hi) = true ∧
       ¬ (samples.filterMap (fun s => s.vel_hi)).Nodup) := by
  have hbase := buildVelMap_error_iff samples [] (by simp)
  simp only [List.map_nil, List.nil_append] at hbase
  by_cases hany : samples.any (fun s => truthyVel s.vel_hi) = true
  · unfold zonesForRoot
    rw [if_pos hany]
    cases hbv : buildVelMap .error [] samples with
    | error e =>
      rw [hbv] at hbase
      simp only [isErr_error] at hbase
      simp [hany, hbase.mp trivial]
    | ok m =>
      rw [hbv] at hbase
      simp only [isErr_ok] at hbase
      have hnd : (samples.filterMap (fun s => s.vel_hi)).Nodup := by
        by_contra hc
        exact absurd (hbase.mpr hc) (by simp)
      simp [hany, hnd]
  · unfold zonesForRoot
    rw [if_neg hany]
    cases samples with
    | nil => simp [hany]
    | cons s rest => simp [hany]

theorem zonesLoop_error_iff (pol : DupPolicy) :
    ∀ (kr : List (Int × Int × Int)) (entries : List SampleEntry),
    isErr (zonesLoop pol kr entries) = true ↔
      ∃ t ∈ kr, isErr (zonesForRoot pol t.1 t.2.1 t.2.2
        (entries.filter (fun e => e.root_midi == t.1))) = true := by
  intro kr entries
  induction kr with
  | nil => simp [zonesLoop]
  | cons t rest ih =>
    rw [zonesLoop]
    cases hz : zonesForRoot pol t.1 t.2.1 t.2.2
        (entries.filter (fun e => e.root_midi == t.1)) with
    | error e =>
      constructor
      · intro _
        refine ⟨t, List.mem_cons_self t rest, ?_⟩
        rw [hz]
        rfl
      · intro _
        rfl
    | ok zs =>
      cases hz2 : zonesLoop pol rest entries with
      | error e =>
        constructor
        · intro _
          obtain ⟨u, hu, hue⟩ := ih.mp (by rw [hz2]; rfl)
          exact ⟨u, List.mem_cons_of_mem t hu, hue⟩
        · intro _
          rfl
      | ok zss =>
        constructor
        · intro hc
          exact absurd hc (by simp)
        · intro hex
          obtain ⟨u, hu, hue⟩ := hex
          rcases List.mem_cons.mp hu with hut | hur
          · subst hut
            rw [hz] at hue
            simp at hue
          · have hrest : isErr (zonesLoop pol rest entries) = true :=
              ih.mpr ⟨u, hur, hue⟩
            rw [hz2] at hrest
            simp at hrest

theorem ckr_keys (rs : List Int) (ls hs : Option Int) :
    (compute_key_ranges rs ls hs).map (fun t => t.1) = rs := by
  apply List.ext_getElem
  · simp [compute_key_ranges]
  · intro i h1 h2
    simp only [compute_key_ranges, List.getElem_map, List.getElem_range]
    rw [List.getD_eq_getElem?_getD, List.getElem?_eq_getElem h2]
    rfl

theorem mem_ckr_fst (rs : List Int) (ls hs : Option Int)
    (t : Int × Int × Int) (ht : t ∈ compute_key_ranges rs ls hs) :
    t.1 ∈ rs := by
  rw [← ckr_keys rs ls hs]
  exact List.mem_map.mpr ⟨t, ht, rfl⟩

theorem exists_ckr_of_mem (rs : List Int) (ls hs : Option Int) (r : Int)
    (hr : r ∈ rs) :
    ∃ lo hi, (r, lo, hi) ∈ compute_key_ranges rs ls hs := by
  have hmem : r ∈ (compute_key_ranges rs ls hs).map (fun t => t.1) := by
    rw [ckr_keys rs ls hs]
    exact hr
  obtain ⟨t, ht, hfst⟩ := List.mem_map.mp hmem
  exact ⟨t.2.1, t.2.2, by rw [← hfst]; exact ht⟩

theorem mem_rootsOf (entries : List SampleEntry) (r : Int) :
    r ∈ rootsOf entries ↔ ∃ e ∈ entries, e.root_midi = r := by
  unfold rootsOf sortedInts
  rw [List.Perm.mem_iff (List.perm_insertionSort _ _)]
  rw [List.mem_dedup, List.mem_map]

theorem velKeys_count : ∀ (entries : List SampleEntry) (r v : Int),
    List.count (r, v) (velKeys entries) =
      List.count v ((entries.filter (fun e => e.root_midi == r)).filterMap
        (fun s => s.vel_hi)) := by
  intro entries r v
  induction entries with
  | nil => simp [velKeys]
  | cons e rest ih =>
    by_cases hr : e.root_midi = r
    · cases hv : e.vel_hi with
      | none =>
        simpa [velKeys, List.filter_cons, List.filterMap_cons, hr, hv]
          using ih
      | some w =>
        simpa [velKeys, List.filter_cons, List.filterMap_cons, hr, hv,
          List.count_cons] using ih
    · cases hv : e.vel_hi with
      | none =>
        simpa [velKeys, List.filter_cons, List.filterMap_cons, hr, hv]
          using ih
      | some w =>
        have hrr : ((e.root_midi, w) == (r, v)) = false := by
          simp [hr]
        simpa [velKeys, List.filter_cons, List.filterMap_cons, hr, hv,
          List.count_cons, hrr] using ih

theorem perRoot_velKeys (entries : List SampleEntry) (r : Int) :
    (entries.filter (fun e => e.root_midi == r)).filterMap
        (fun s => s.vel_hi) =
      ((velKeys entries).filter (fun p => p.1 == r)).map Prod.snd := by
  induction entries with
  | nil => simp [velKeys]
  | cons e rest ih =>
    by_cases hr : e.root_midi = r
    · cases hv : e.vel_hi with
      | none =>
        simpa [velKeys, List.filter_cons, List.filterMap_cons, hr, hv]
          using ih
      | some w =>
        simpa [velKeys, List.filter_cons, List.filterMap_cons, hr, hv]
          using ih
    · cases hv : e.vel_hi with
      | none =>
        simpa [velKeys, List.filter_cons, List.filterMap_cons, hr, hv]
          using ih
      | some w =>
        simpa [velKeys, List.filter_cons, List.filterMap_cons, hr, hv]
          using ih

theorem velKeys_nodup_iff (entries : List SampleEntry) :
    ¬ (velKeys entries).Nodup ↔
      ∃ r ∈ rootsOf entries,
        ¬ ((entries.filter (fun e => e.root_midi == r)).filterMap
            (fun s => s.vel_hi)).Nodup := by
  constructor
  · intro h
    obtain ⟨⟨r, v⟩, hdup⟩ := List.exists_duplicate_iff_not_nodup.mpr h
    have hmem : (r, v) ∈ velKeys entries := hdup.mem
    have hroot : r ∈ rootsOf entries := by
      obtain ⟨e, he, hfe⟩ := List.mem_filterMap.mp hmem
      cases hve : e.vel_hi with
      | none => rw [hve] at hfe; simp at hfe
      | some w =>
        rw [hve] at hfe
        simp at hfe
        exact (mem_rootsOf entries r).mpr ⟨e, he, hfe.1⟩
    refine ⟨r, hroot, ?_⟩
    rw [perRoot_velKeys entries r]
    have hsub : [(r, v), (r, v)].Sublist (velKeys entries) :=
      List.duplicate_iff_sublist.mp hdup
    have hsub2 : [(r, v), (r, v)].Sublist
        ((velKeys entries).filter (fun p => p.1 == r)) := by
      have hf := hsub.filter (fun p => p.1 == r)
      simpa using hf
    have hsub3 : [v, v].Sublist
        (((velKeys entries).filter (fun p => p.1 == r)).map Prod.snd) := by
      simpa using hsub2.map Prod.snd
    rw [List.nodup_iff_sublist]
    push_neg
    exact ⟨v, hsub3⟩
  · rintro ⟨r, _, hnd⟩
    intro hc
    apply hnd
    rw [perRoot_velKeys entries r]
    refine List.Nodup.map_on ?_ (hc.filter (fun p => p.1 == r))
    intro x hx y hy hxy
    have hxr : x.1 = r := by simpa using (List.mem_filter.mp hx).2
    have hyr : y.1 = r := by simpa using (List.mem_filter.mp hy).2
    cases x
    cases y
    simp_all

/-- C4 (amended): with duplicate policy `error` the computation aborts as a
whole — the result is a single error value carrying no zones — if and only
if two velocity-bearing entries (velocityHigh present, in the declared
domain `[1,127]`) share identical `(rootMidiNote, velocityHigh)`.  Contrary
to the claim, two entries at one root whose velocityHigh is absent never
trigger the abort (see the counterexample). -/
theorem c4_error_abort_iff (entries : List SampleEntry) (ls hs : Option Int)
    (hdom : ∀ e ∈ entries, e.vel_hi = none ∨
      ∃ v, e.vel_hi = some v ∧ 1 ≤ v ∧ v ≤ 127) :
    isErr (make_tal entries .error ls hs) = true ↔
      ¬ (velKeys entries).Nodup := by
  unfold make_tal
  rw [zonesLoop_error_iff, velKeys_nodup_iff]
  constructor
  · rintro ⟨t, ht, hterr⟩
    rw [zonesForRoot_error_iff] at hterr
    exact ⟨t.1, mem_ckr_fst (rootsOf entries) ls hs t ht, hterr.2⟩
  · rintro ⟨r, hr, hnd⟩
    obtain ⟨lo, hi, hmem⟩ := exists_ckr_of_mem (rootsOf entries) ls hs r hr
    refine ⟨(r, lo, hi), hmem, ?_⟩
    show isErr (zonesForRoot .error r lo hi
      (entries.filter (fun e => e.root_midi == r))) = true
    rw [zonesForRoot_error_iff]
    refine ⟨?_, hnd⟩
    have hne : (entries.filter (fun e => e.root_midi == r)).filterMap
        (fun s => s.vel_hi) ≠ [] := by
      intro hcc
      exact hnd (hcc ▸ List.nodup_nil)
    obtain ⟨w, hw⟩ := List.exists_mem_of_ne_nil _ hne
    obtain ⟨e, he, hfe⟩ := List.mem_filterMap.mp hw
    have hee := List.mem_filter.mp he
    rcases hdom e hee.1 with hnone | ⟨v, hv, hv1, _⟩
    · rw [hnone] at hfe
      simp at hfe
    · rw [List.any_eq_true]
      refine ⟨e, he, ?_⟩
      rw [hv]
      simp [truthyVel]
      omega

/-- C4 counterexample: two entries at root 60 both with absent velocityHigh
share the identical `(rootMidiNote, velocityHigh)` pair, yet the `error`
policy does not abort — a zone list is produced. -/
theorem c4_counterexample :
    (make_tal [⟨"a", 60, none⟩, ⟨"b", 60, none⟩] .error none none =
      .ok [⟨"a", 60, 0, 127, 0, 127⟩]) ∧
    ¬ (([⟨"a", 60, none⟩, ⟨"b", 60, none⟩] : List SampleEntry).map
        (fun e => (e.root_midi, e.vel_hi))).Nodup :=
  ⟨rfl, by decide⟩

/-- Witness for C4: a duplicate at root 60 among the roots 48 and 60 aborts
the whole run. -/
theorem c4_witness :
    isErr (make_tal [⟨"a", 48, some 40⟩, ⟨"b", 60, some 40⟩,
      ⟨"c", 60, some 40⟩] .error none none) = true :=
  (c4_error_abort_iff [⟨"a", 48, some 40⟩, ⟨"b", 60, some 40⟩,
    ⟨"c", 60, some 40⟩] none none (by decide)).mpr (by decide)

/-! ## Error message lemmas -/

theorem velMapInsert_error_msg (pol : DupPolicy)
    (m : List (Int × SampleEntry)) (s : SampleEntry) (e : String)
    (h : velMapInsert pol m s = .error e) : e = "duplicate velocity" := by
  cases hv : s.vel_hi with
  | none => simp [velMapInsert, hv] at h
  | some v =>
    by_cases hl : (velLookup m v).isSome = true
    · cases pol with
      | error =>
        simp [velMapInsert, hv, hl] at h
        exact h.symm
      | keepFirst => simp [velMapInsert, hv, hl] at h
      | keepLast => simp [velMapInsert, hv, hl] at h
    · have hl2 : (velLookup m v).isSome = false := by simpa using hl
      simp [velMapInsert, hv, hl2] at h

theorem buildVelMap_error_msg (pol : DupPolicy) :
    ∀ (samples : List SampleEntry) (m : List (Int × SampleEntry))
      (e : String), buildVelMap pol m samples = .error e →
      e = "duplicate velocity" := by
  intro samples
  induction samples with
  | nil => intro m e h; simp [buildVelMap] at h
  | cons s rest ih =>
    intro m e h
    rw [buildVelMap] at h
    cases hvi : velMapInsert pol m s with
    | error e2 =>
      rw [hvi] at h
      simp at h
      exact h ▸ velMapInsert_error_msg pol m s e2 hvi
    | ok m2 =>
      rw [hvi] at h
      exact ih m2 e h

theorem zonesForRoot_error_msg (pol : DupPolicy) (r lo hi : Int)
    (samples : List SampleEntry) (e : String)
    (h : zonesForRoot pol r lo hi samples = .error e) :
    e = "duplicate velocity" := by
  unfold zonesForRoot at h
  by_cases hany : samples.any (fun s => truthyVel s.vel_hi) = true
  · rw [if_pos hany] at h
    cases hbv : buildVelMap pol [] samples with
    | error e2 =>
      rw [hbv] at h
      simp at h
      exact h ▸ buildVelMap_error_msg pol samples [] e2 hbv
    | ok m =>
      rw [hbv] at h
      simp at h
  · rw [if_neg hany] at h
    cases samples with
    | nil => simp at h
    | cons s r2 => simp at h

theorem zonesLoop_error_msg (pol : DupPolicy) :
    ∀ (kr : List (Int × Int × Int)) (entries : List SampleEntry)
      (e : String), zonesLoop pol kr entries = .error e →
      e = "duplicate velocity" := by
  intro kr
  induction kr with
  | nil => intro entries e h; simp [zonesLoop] at h
  | cons t rest ih =>
    intro entries e h
    rw [zonesLoop] at h
    cases hz : zonesForRoot pol t.1 t.2.1 t.2.2
        (entries.filter (fun x => x.root_midi == t.1)) with
    | error e2 =>
      rw [hz] at h
      simp at h
      exact h ▸ zonesForRoot_error_msg pol t.1 t.2.1 t.2.2 _ e2 hz
    | ok zs =>
      rw [hz] at h
      cases hz2 : zonesLoop pol rest entries with
      | error e3 =>
        rw [hz2] at h
        simp at h
        exact h ▸ ih entries e3 hz2
      | ok zss =>
        rw [hz2] at h
        simp at h

/-- C5 (amended): whenever the computation aborts, the failure delivered
to the caller is the bare constant message `"duplicate velocity"`; it
carries neither the offending root nor the velocity.  The claim's example
input (root 60, two samples at velocity 40, policy `error`) fails with
exactly this constant value. -/
theorem c5_error_is_constant (entries : List SampleEntry) (pol : DupPolicy)
    (ls hs : Option Int) (e : String)
    (h : make_tal entries pol ls hs = .error e) :
    e = "duplicate velocity" := by
  unfold make_tal at h
  exact zonesLoop_error_msg pol _ entries e h

/-- C5 counterexample: two different offending `(root, velocity)` pairs —
`(60, 40)` and `(61, 41)` — produce the identical failure value, so the
failure does not carry the offending root and velocity. -/
theorem c5_counterexample :
    make_tal [⟨"a", 60, some 40⟩, ⟨"b", 60, some 40⟩] .error none none =
      .error "duplicate velocity" ∧
    make_tal [⟨"a", 61, some 41⟩, ⟨"b", 61, some 41⟩] .error none none =
      .error "duplicate velocity" ∧
    make_tal [⟨"a", 60, some 40⟩, ⟨"b", 60, some 40⟩] .error none none =
      make_tal [⟨"a", 61, some 41⟩, ⟨"b", 61, some 41⟩] .error none none :=
  ⟨rfl, rfl, rfl⟩

/-- Witness for C5 at the claim's example input. -/
theorem c5_witness :
    make_tal [⟨"a", 60, some 40⟩, ⟨"b", 60, some 40⟩] .error none none =
      .error "duplicate velocity" ∧
    "duplicate velocity" = "duplicate velocity" :=
  ⟨rfl, c5_error_is_constant [⟨"a", 60, some 40⟩, ⟨"b", 60, some 40⟩]
    .error none none "duplicate velocity" rfl⟩

/-! ## Zone assembly lemmas -/

theorem rootsOf_nodup (entries : List SampleEntry) :
    (rootsOf entries).Nodup := by
  unfold rootsOf sortedInts
  exact ((List.perm_insertionSort _ _).nodup_iff).mpr (List.nodup_dedup _)

theorem zonesForRoot_ok_rootkey (pol : DupPolicy) (r lo hi : Int)
    (samples : List SampleEntry) (zs : List Zone)
    (h : zonesForRoot pol r lo hi samples = .ok zs) :
    ∀ z ∈ zs, z.rootkey = r := by
  unfold zonesForRoot at h
  by_cases hany : samples.any (fun s => truthyVel s.vel_hi) = true
  · rw [if_pos hany] at h
    cases hbv : buildVelMap pol [] samples with
    | error e =>
      rw [hbv] at h
      simp at h
    | ok m =>
      rw [hbv] at h
      simp only [Except.ok.injEq] at h
      intro z hz
      rw [← h] at hz
      obtain ⟨t, _, hzt⟩ := List.mem_map.mp hz
      cases hlk : velLookup m t.1 with
      | some s =>
        rw [hlk] at hzt
        rw [← hzt]
      | none =>
        rw [hlk] at hzt
        rw [← hzt]
  · rw [if_neg hany] at h
    cases samples with
    | nil =>
      simp at h
      intro z hz
      rw [h] at hz
      simp at hz
    | cons s rest =>
      simp at h
      intro z hz
      rw [← h] at hz
      simp at hz
      rw [hz]

theorem zonesLoop_ok_keys (pol : DupPolicy) :
    ∀ (kr : List (Int × Int × Int)) (entries : List SampleEntry)
      (zs : List Zone), zonesLoop pol kr entries = .ok zs →
      ∀ z ∈ zs, ∃ t ∈ kr, z.rootkey = t.1 := by
  intro kr
  induction kr with
  | nil =>
    intro entries zs h z hz
    simp [zonesLoop] at h
    rw [h] at hz
    simp at hz
  | cons t rest ih =>
    intro entries zs h z hz
    rw [zonesLoop] at h
    cases hz1 : zonesForRoot pol t.1 t.2.1 t.2.2
        (entries.filter (fun e => e.root_midi == t.1)) with
    | error e =>
      rw [hz1] at h
      simp at h
    | ok zsh =>
      rw [hz1] at h
      cases hz2 : zonesLoop pol rest entries with
      | error e =>
        rw [hz2] at h
        simp at h
      | ok zst =>
        rw [hz2] at h
        simp at h
        rw [← h] at hz
        rcases List.mem_append.mp hz with hzh | hzt
        · exact ⟨t, List.mem_cons_self t rest,
            zonesForRoot_ok_rootkey pol t.1 t.2.1 t.2.2 _ zsh hz1 z hzh⟩
        · obtain ⟨u, hu, hzu⟩ := ih entries zst hz2 z hzt
          exact ⟨u, List.mem_cons_of_mem t hu, hzu⟩

theorem zonesLoop_ok_filter (pol : DupPolicy) :
    ∀ (kr : List (Int × Int × Int)) (entries : List SampleEntry)
      (zs : List Zone) (r lo hi : Int),
      (kr.map (fun t => t.1)).Nodup →
      zonesLoop pol kr entries = .ok zs →
      (r, lo, hi) ∈ kr →
      ∃ zsr, zonesForRoot pol r lo hi
          (entries.filter (fun e => e.root_midi == r)) = .ok zsr ∧
        zs.filter (fun z => z.rootkey == r) = zsr := by
  intro kr
  induction kr with
  | nil =>
    intro entries zs r lo hi _ _ hmem
    simp at hmem
  | cons t rest ih =>
    intro entries zs r lo hi hnd h hmem
    simp only [List.map_cons, List.nodup_cons] at hnd
    rw [zonesLoop] at h
    cases hz1 : zonesForRoot pol t.1 t.2.1 t.2.2
        (entries.filter (fun e => e.root_midi == t.1)) with
    | error e =>
      rw [hz1] at h
      simp at h
    | ok zsh =>
      rw [hz1] at h
      cases hz2 : zonesLoop pol rest entries with
      | error e =>
        rw [hz2] at h
        simp at h
      | ok zst =>
        rw [hz2] at h
        simp only [Except.ok.injEq] at h
        subst h
        rcases List.mem_cons.mp hmem with hm1 | hm2
        · subst hm1
          refine ⟨zsh, by simpa using hz1, ?_⟩
          rw [List.filter_append]
          have hf1 : zsh.filter (fun z => z.rootkey == r) = zsh := by
            rw [List.filter_eq_self]
            intro z hz
            have hzr := zonesForRoot_ok_rootkey pol _ _ _ _ zsh
              (by simpa using hz1) z hz
            simpa using hzr
          have hf2 : zst.filter (fun z => z.rootkey == r) = [] := by
            rw [List.filter_eq_nil_iff]
            intro z hz hc
            obtain ⟨u, hu, hzu⟩ := zonesLoop_ok_keys pol rest entries zst
              hz2 z hz
            have hzr : z.rootkey = r := by simpa using hc
            exact hnd.1 (List.mem_map.mpr ⟨u, hu, by rw [← hzu, hzr]⟩)
          rw [hf1, hf2, List.append_nil]
        · have hrne : t.1 ≠ r := by
            intro hc
            have hrm : r ∈ rest.map (fun u => u.1) :=
              List.mem_map.mpr ⟨(r, lo, hi), hm2, rfl⟩
            rw [hc] at hnd
            exact hnd.1 hrm
          obtain ⟨zsr, hza, hzb⟩ := ih entries zst r lo hi hnd.2 hz2 hm2
          refine ⟨zsr, hza, ?_⟩
          rw [List.filter_append, hzb]
          have hf1 : zsh.filter (fun z => z.rootkey == r) = [] := by
            rw [List.filter_eq_nil_iff]
            intro z hz hc
            have hzr := zonesForRoot_ok_rootkey pol t.1 t.2.1 t.2.2 _ zsh
              hz1 z hz
            exact hrne (by rw [← hzr]; simpa using hc)
          rw [hf1, List.nil_append]

theorem buildVelMap_filter (pol : DupPolicy) :
    ∀ (samples : List SampleEntry) (m : List (Int × SampleEntry)),
    buildVelMap pol m (samples.filter (fun e => e.vel_hi.isSome)) =
      buildVelMap pol m samples := by
  intro samples
  induction samples with
  | nil => intro m; rfl
  | cons s rest ih =>
    intro m
    cases hv : s.vel_hi with
    | none =>
      have hstep : buildVelMap pol m (s :: rest) =
          buildVelMap pol m rest := by
        simp [buildVelMap, velMapInsert, hv]
      rw [hstep, List.filter_cons]
      simp only [hv, Option.isSome_none]
      exact ih m
    | some v =>
      rw [List.filter_cons]
      simp only [hv, Option.isSome_some, if_true]
      cases hvi : velMapInsert pol m s with
      | error e => simp [buildVelMap, hvi]
      | ok m2 => simp [buildVelMap, hvi, ih m2]

/-- C6: (1) for every root whose samples all lack a velocity, a successful
run emits exactly one zone for that root, with velocity range `[0,127]`,
using the first-encountered sample in stable input order (the head of the
root's group) as representative; (2) whenever a sample list contains a
velocity-bearing (truthy) sample, the per-root zone computation is
unchanged by dropping the velocity-absent samples — the velocity-bearing
entries alone determine the partition and the velocity-absent ones
contribute no zone. -/
theorem c6_no_velocity_single_zone_and_mixed :
    (∀ (entries : List SampleEntry) (pol : DupPolicy) (ls hs : Option Int)
       (r : Int) (zs : List Zone),
       make_tal entries pol ls hs = .ok zs →
       entries.filter (fun e => e.root_midi == r) ≠ [] →
       (∀ e ∈ entries.filter (fun e => e.root_midi == r),
         e.vel_hi = none) →
       ∃ lo hi g grest, entries.filter (fun e => e.root_midi == r) =
           g :: grest ∧
         zs.filter (fun z => z.rootkey == r) =
           [⟨g.path, r, lo, hi, 0, 127⟩]) ∧
    (∀ (pol : DupPolicy) (r lo hi : Int) (samples : List SampleEntry),
       (∃ e ∈ samples, truthyVel e.vel_hi = true) →
       zonesForRoot pol r lo hi samples =
         zonesForRoot pol r lo hi
           (samples.filter (fun e => e.vel_hi.isSome))) := by
  constructor
  · intro entries pol ls hs r zs hok hne hall
    have hhead := List.head_mem hne
    have hhf := List.mem_filter.mp hhead
    have hr : r ∈ rootsOf entries :=
      (mem_rootsOf entries r).mpr ⟨_, hhf.1, by simpa using hhf.2⟩
    obtain ⟨lo, hi, hmem⟩ := exists_ckr_of_mem (rootsOf entries) ls hs r hr
    unfold make_tal at hok
    have hknd : ((compute_key_ranges (rootsOf entries) ls hs).map
        (fun t => t.1)).Nodup := by
      rw [ckr_keys]
      exact rootsOf_nodup entries
    obtain ⟨zsr, hza, hzb⟩ := zonesLoop_ok_filter pol
      (compute_key_ranges (rootsOf entries) ls hs) entries zs r lo hi
      hknd hok hmem
    cases hgr : entries.filter (fun e => e.root_midi == r) with
    | nil => exact absurd hgr hne
    | cons g grest =>
      refine ⟨lo, hi, g, grest, rfl, ?_⟩
      rw [hzb]
      rw [hgr] at hza hall
      have hany : ¬ ((g :: grest).any
          (fun s => truthyVel s.vel_hi) = true) := by
        rw [List.any_eq_true]
        rintro ⟨x, hx, htx⟩
        rw [hall x hx] at htx
        simp [truthyVel] at htx
      unfold zonesForRoot at hza
      rw [if_neg hany] at hza
      simp only [Except.ok.injEq] at hza
      exact hza.symm
  · intro pol r lo hi samples hex
    obtain ⟨e0, he0, ht0⟩ := hex
    have hany1 : samples.any (fun s => truthyVel s.vel_hi) = true :=
      List.any_eq_true.mpr ⟨e0, he0, ht0⟩
    have hany2 : (samples.filter (fun e => e.vel_hi.isSome)).any
        (fun s => truthyVel s.vel_hi) = true := by
      refine List.any_eq_true.mpr ⟨e0, ?_, ht0⟩
      rw [List.mem_filter]
      refine ⟨he0, ?_⟩
      cases hv : e0.vel_hi with
      | none =>
        rw [hv] at ht0
        simp [truthyVel] at ht0
      | some v => simp [hv]
    unfold zonesForRoot
    rw [if_pos hany1, if_pos hany2, buildVelMap_filter pol samples []]

/-- Witness for C6: root 60 (all samples velocity-free) among roots 60 and
72, plus a mixed root where the velocity-absent sample is dropped. -/
theorem c6_witness :
    (∃ lo hi g grest,
      ([⟨"a", 60, none⟩, ⟨"x", 72, some 100⟩] : List SampleEntry).filter
          (fun e => e.root_midi == 60) = g :: grest ∧
      ([⟨"a", 60, 0, 66, 0, 127⟩,
        ⟨"x", 72, 67, 127, 0, 127⟩] : List Zone).filter
          (fun z => z.rootkey == 60) = [⟨g.path, 60, lo, hi, 0, 127⟩]) ∧
    zonesForRoot .keepLast 60 0 127
        [⟨"a", 60, none⟩, ⟨"b", 60, some 50⟩] =
      zonesForRoot .keepLast 60 0 127
        (([⟨"a", 60, none⟩, ⟨"b", 60, some 50⟩] :
            List SampleEntry).filter (fun e => e.vel_hi.isSome)) :=
  ⟨c6_no_velocity_single_zone_and_mixed.1
      [⟨"a", 60, none⟩, ⟨"x", 72, some 100⟩] .keepLast none none 60
      [⟨"a", 60, 0, 66, 0, 127⟩, ⟨"x", 72, 67, 127, 0, 127⟩] rfl
      (by decide) (by decide),
   c6_no_velocity_single_zone_and_mixed.2 .keepLast 60 0 127
      [⟨"a", 60, none⟩, ⟨"b", 60, some 50⟩]
      ⟨⟨"b", 60, some 50⟩, by decide, by decide⟩⟩

/-! ## Duplicate policy selection lemmas -/

theorem zonesForRoot_pair (e1 e2 : SampleEntry) (r v lo hi : Int)
    (pol : DupPolicy) (h1v : e1.vel_hi = some v) (h2v : e2.vel_hi = some v)
    (hv : v ≠ 0) :
    zonesForRoot pol r lo hi [e1, e2] =
      match pol with
      | .error => .error "duplicate velocity"
      | .keepFirst => .ok [⟨e1.path, r, lo, hi, 0, 127⟩]
      | .keepLast => .ok [⟨e2.path, r, lo, hi, 0, 127⟩] := by
  have hany : ([e1, e2].any (fun s => truthyVel s.vel_hi)) = true := by
    simp [truthyVel, h1v, hv]
  have hb1 : velMapInsert pol [] e1 = .ok [(v, e1)] := by
    simp [velMapInsert, h1v, velLookup]
  have hlk : velLookup [(v, e1)] v = some e1 := by simp [velLookup]
  have hs1 : sortedInts [v] = [v] :=
    sortedInts_eq_self [v] (List.chain'_singleton v)
  have hcv2 : compute_vel_ranges [v] = [(v, 0, 127)] := by
    unfold compute_vel_ranges
    rw [hs1]
    rfl
  unfold zonesForRoot
  rw [if_pos hany]
  cases pol with
  | error =>
    have hb2 : velMapInsert .error [(v, e1)] e2 =
        .error "duplicate velocity" := by
      simp [velMapInsert, h2v, hlk]
    simp [buildVelMap, hb1, hb2]
  | keepFirst =>
    have hb2 : velMapInsert .keepFirst [(v, e1)] e2 = .ok [(v, e1)] := by
      simp [velMapInsert, h2v, hlk]
    have hbm : buildVelMap .keepFirst [] [e1, e2] = .ok [(v, e1)] := by
      simp [buildVelMap, hb1, hb2]
    rw [hbm]
    simp [hs1, hcv2, hlk]
  | keepLast =>
    have hb2 : velMapInsert .keepLast [(v, e1)] e2 = .ok [(v, e2)] := by
      simp [velMapInsert, h2v, hlk]
    have hbm : buildVelMap .keepLast [] [e1, e2] = .ok [(v, e2)] := by
      simp [buildVelMap, hb1, hb2]
    rw [hbm]
    have hlk2 : velLookup [(v, e2)] v = some e2 := by simp [velLookup]
    simp [hs1, hcv2, hlk2]

theorem zonesLoop_singleton (pol : DupPolicy) (t : Int × Int × Int)
    (entries : List SampleEntry) :
    zonesLoop pol [t] entries =
      match zonesForRoot pol t.1 t.2.1 t.2.2
          (entries.filter (fun e => e.root_midi == t.1)) with
      | .error e => .error e
      | .ok zs => .ok (zs ++ []) := by
  rw [zonesLoop]
  cases zonesForRoot pol t.1 t.2.1 t.2.2
      (entries.filter (fun e => e.root_midi == t.1)) with
  | error e => rfl
  | ok zs => rfl

theorem make_tal_pair (e1 e2 : SampleEntry) (r v : Int) (pol : DupPolicy)
    (ls hs : Option Int) (h1r : e1.root_midi = r) (h2r : e2.root_midi = r)
    (h1v : e1.vel_hi = some v) (h2v : e2.vel_hi = some v) (hv : v ≠ 0) :
    make_tal [e1, e2] pol ls hs =
      match pol with
      | .error => .error "duplicate velocity"
      | .keepFirst => .ok [⟨e1.path, r,
          (match ls with | none => 0 | some l => max 0 (r - l)),
          (match hs with | none => 127 | some h => min 127 (r + h)),
          0, 127⟩]
      | .keepLast => .ok [⟨e2.path, r,
          (match ls with | none => 0 | some l => max 0 (r - l)),
          (match hs with | none => 127 | some h => min 127 (r + h)),
          0, 127⟩] := by
  have hroots : rootsOf [e1, e2] = [r] := by
    have hd1 : ([r] : List Int).dedup = [r] := by
      rw [List.dedup_cons_of_not_mem (by simp)]
      rfl
    have hd : ([r, r] : List Int).dedup = [r] := by
      rw [List.dedup_cons_of_mem (by simp)]
      exact hd1
    unfold rootsOf
    rw [show [e1, e2].map (fun e => e.root_midi) = [r, r] by
      simp [h1r, h2r]]
    rw [hd]
    exact sortedInts_eq_self [r] (List.chain'_singleton r)
  have hckr : compute_key_ranges [r] ls hs =
      [(r, (match ls with | none => 0 | some l => max 0 (r - l)),
        (match hs with | none => 127 | some h => min 127 (r + h)))] := by
    simp [compute_key_ranges, List.range_succ]
  have hfil : [e1, e2].filter (fun e => e.root_midi == r) = [e1, e2] := by
    simp [h1r, h2r]
  unfold make_tal
  rw [hroots, hckr, zonesLoop_singleton]
  simp only []
  rw [hfil, zonesForRoot_pair e1 e2 r v _ _ pol h1v h2v hv]
  cases pol with
  | error => rfl
  | keepFirst => simp
  | keepLast => simp

/-- C7: for every pair of entries colliding on an identical present
`(rootMidiNote, velocityHigh)` and carrying distinct sample paths,
`keep-first` selects the earliest-encountered entry's path for the zone and
`keep-last` the latest-encountered one; with the input order reversed the
selections swap, so the two policies (and each policy across the two
orders) select differing sample references. -/
theorem c7_keep_first_last (e1 e2 : SampleEntry) (r v : Int)
    (ls hs : Option Int) (h1r : e1.root_midi = r) (h2r : e2.root_midi = r)
    (h1v : e1.vel_hi = some v) (h2v : e2.vel_hi = some v)
    (hv1 : 1 ≤ v) (hv127 : v ≤ 127) (hpath : e1.path ≠ e2.path) :
    Except.map (List.map Zone.path) (make_tal [e1, e2] .keepFirst ls hs) =
      .ok [e1.path] ∧
    Except.map (List.map Zone.path) (make_tal [e1, e2] .keepLast ls hs) =
      .ok [e2.path] ∧
    Except.map (List.map Zone.path) (make_tal [e2, e1] .keepFirst ls hs) =
      .ok [e2.path] ∧
    Except.map (List.map Zone.path) (make_tal [e2, e1] .keepLast ls hs) =
      .ok [e1.path] ∧
    (Except.ok [e1.path] : Except String (List String)) ≠ .ok [e2.path] := by
  have hv : v ≠ 0 := by omega
  refine ⟨?_, ?_, ?_, ?_, ?_⟩
  · rw [make_tal_pair e1 e2 r v .keepFirst ls hs h1r h2r h1v h2v hv]
    rfl
  · rw [make_tal_pair e1 e2 r v .keepLast ls hs h1r h2r h1v h2v hv]
    rfl
  · rw [make_tal_pair e2 e1 r v .keepFirst ls hs h2r h1r h2v h1v hv]
    rfl
  · rw [make_tal_pair e2 e1 r v .keepLast ls hs h2r h1r h2v h1v hv]
    rfl
  · intro hc
    simp at hc
    exact hpath hc

/-- Witness for C7 at the colliding pair `(root 60, velocity 40)` with
paths `"a"` and `"b"`. -/
theorem c7_witness :
    Except.map (List.map Zone.path)
        (make_tal [⟨"a", 60, some 40⟩, ⟨"b", 60, some 40⟩] .keepFirst
          none none) = .ok ["a"] ∧
    Except.map (List.map Zone.path)
        (make_tal [⟨"a", 60, some 40⟩, ⟨"b", 60, some 40⟩] .keepLast
          none none) = .ok ["b"] ∧
    Except.map (List.map Zone.path)
        (make_tal [⟨"b", 60, some 40⟩, ⟨"a", 60, some 40⟩] .keepFirst
          none none) = .ok ["b"] ∧
    Except.map (List.map Zone.path)
        (make_tal [⟨"b", 60, some 40⟩, ⟨"a", 60, some 40⟩] .keepLast
          none none) = .ok ["a"] ∧
    (Except.ok ["a"] : Except String (List String)) ≠ .ok ["b"] :=
  c7_keep_first_last ⟨"a", 60, some 40⟩ ⟨"b", 60, some 40⟩ 60 40 none none
    rfl rfl rfl rfl (by norm_num) (by norm_num) (by decide)

/-! ## Parsing front-end results -/

/-- C8 (amended): the auto-detect front-end only ever records a velocity
that is absent or in `[1,127]` — an out-of-range velocity candidate is
discarded as if absent — but the root MIDI note is not constrained to
`[0,127]`: the stem `C9` at middle-C convention 3 yields an entry with root
132; and the template-mode post-processing records the velocity capture
without any range check. -/
theorem c8_velocity_domain_only :
    (∀ (name : List Char) (mc : Int),
      (auto_detect name mc).2 = none ∨
      ∃ v, (auto_detect name mc).2 = some v ∧ 1 ≤ v ∧ v ≤ 127) ∧
    parseStems ["C9"] 3 = [⟨"C9", 132, none⟩] ∧
    template_vel (some "300".data) = some 300 := by
  refine ⟨?_, rfl, rfl⟩
  intro name mc
  unfold auto_detect
  cases hvs : velSearch name with
  | none => left; rfl
  | some ds =>
    by_cases hr : 1 ≤ digitsVal ds ∧ digitsVal ds ≤ 127
    · right
      exact ⟨digitsVal ds, by simp [hvs, hr], hr.1, hr.2⟩
    · left
      simp [hvs, hr]

/-- C8 counterexample: the stem `C9` parses to a SampleEntry whose root,
132, lies outside `[0,127]`, and the template velocity post-processing
keeps the out-of-range value 300. -/
theorem c8_counterexample :
    auto_detect "C9".data 3 = (some 132, none) ∧
    parseStems ["C9"] 3 = [⟨"C9", 132, none⟩] ∧
    ¬ ((132 : Int) ≤ 127) ∧
    template_vel (some "300".data) = some 300 ∧
    ¬ ((300 : Int) ≤ 127) :=
  ⟨rfl, rfl, by norm_num, rfl, by norm_num⟩

/-- C9 (amended): a file whose root does not resolve is silently skipped —
the parsing loop's output on the remaining files is unchanged — so the run
does not abort; but no count or list of excluded files is exposed (the
output is identical with or without the excluded file, see the
counterexample). -/
theorem c9_silent_exclusion (p : String) (rest : List String) (mc : Int)
    (h : (auto_detect p.data mc).1 = none) :
    parseStems (p :: rest) mc = parseStems rest mc := by
  rcases had : auto_detect p.data mc with ⟨rt, vl⟩
  rw [had] at h
  simp at h
  subst h
  simp [parseStems, had]

/-- C9 counterexample: the output of the parsing loop is identical whether
or not an unresolvable file (`zzz`) was present in the input, so no
aggregate count or list of excluded files is observable to the caller. -/
theorem c9_counterexample :
    parseStems ["C3", "zzz"] 3 = [⟨"C3", 60, none⟩] ∧
    parseStems ["C3"] 3 = [⟨"C3", 60, none⟩] ∧
    parseStems ["C3", "zzz"] 3 = parseStems ["C3"] 3 :=
  ⟨rfl, rfl, rfl⟩

/-- Witness for C9 on the unresolvable stem `zzz`. -/
theorem c9_witness :
    parseStems ["zzz", "C3"] 3 = parseStems ["C3"] 3 :=
  c9_silent_exclusion "zzz" ["C3"] 3 rfl

theorem noteSearchRel_leftmost : ∀ (s : List Char) (b : Bool) (p : Nat),
    (if p = 0 then b
     else match s.get? (p - 1) with
       | some c => !isAlnum c
       | none => false) = true →
    (noteTokenHere (s.drop p)).isSome = true →
    ∃ q tok, noteSearchRel b s = some (q, tok) ∧ q ≤ p := by
  intro s
  induction s with
  | nil =>
    intro b p _ ht
    rw [List.drop_nil] at ht
    simp [noteTokenHere] at ht
  | cons c rest ih =>
    intro b p hb ht
    cases p with
    | zero =>
      simp at hb
      obtain ⟨tok, htok⟩ := Option.isSome_iff_exists.mp ht
      refine ⟨0, tok, ?_, Nat.le_refl 0⟩
      rw [hb]
      simp only [List.drop_zero] at htok
      simp [noteSearchRel, htok]
    | succ p =>
      have hb2 : (if p = 0 then !isAlnum c
          else match rest.get? (p - 1) with
            | some d => !isAlnum d
            | none => false) = true := by
        cases p with
        | zero => simpa using hb
        | succ p2 => simpa using hb
      have ht2 : (noteTokenHere (rest.drop p)).isSome = true := by
        simpa using ht
      obtain ⟨q, tok, hq, hqle⟩ := ih (!isAlnum c) p hb2 ht2
      cases hbv : b with
      | false =>
        refine ⟨q + 1, tok, ?_, by omega⟩
        cases htk : noteTokenHere (c :: rest) with
        | none => simp [noteSearchRel, htk, hq]
        | some t0 => simp [noteSearchRel, htk, hq]
      | true =>
        cases htk : noteTokenHere (c :: rest) with
        | none =>
          refine ⟨q + 1, tok, ?_, by omega⟩
          simp [noteSearchRel, htk, hq]
        | some t0 =>
          exact ⟨0, t0, by simp [noteSearchRel, htk], Nat.zero_le _⟩

/-- C10: the root is derived from the leftmost note token of the filename:
whenever any position `p` carries a separator-bounded note-token match, the
search returns a match at a position `q ≤ p` and the auto-detected root is
the MIDI value of that leftmost token; in particular `A1_C3` resolves to
the root of `A1` (45 at middle-C convention 3), not that of `C3` (60). -/
theorem c10_leftmost_note_token :
    (∀ (s : List Char) (p : Nat), noteMatchAt s p = true →
      ∃ q tok, noteSearch s = some (q, tok) ∧ q ≤ p ∧
        ∀ mc : Int, (auto_detect s mc).1 = note_to_midi tok mc) ∧
    auto_detect "A1_C3".data 3 = (some 45, none) ∧
    note_to_midi "C3".data 3 = some 60 := by
  refine ⟨?_, rfl, rfl⟩
  intro s p hm
  rw [noteMatchAt, Bool.and_eq_true] at hm
  obtain ⟨q, tok, hq, hle⟩ := noteSearchRel_leftmost s true p hm.1 hm.2
  refine ⟨q, tok, hq, hle, fun mc => ?_⟩
  simp [auto_detect, noteSearch] at hq ⊢
  rw [hq]

/-- Witness for C10: position 3 of `A1_C3` carries the note token `C3`,
yet the search resolves the earlier token `A1` at position 0. -/
theorem c10_witness :
    noteMatchAt "A1_C3".data 3 = true ∧
    ∃ q tok, noteSearch "A1_C3".data = some (q, tok) ∧ q ≤ 3 ∧
      ∀ mc : Int, (auto_detect "A1_C3".data mc).1 = note_to_midi tok mc :=
  ⟨rfl, c10_leftmost_note_token.1 "A1_C3".data 3 rfl⟩
